import Mathlib

/-
Verification of the nixf-diagnose diagnostic pipeline (src/main.rs).

The Rust program is shallowly embedded:
  * JSON values (serde_json::Value) become the inductive `Json`; the numeric
    case carries an `Int`, covering every value the program ever reads via
    `as_i64` / `as_u64` (floating-point JSON numbers decode to `none` for
    both accessors, which the embedding represents by the non-`num`
    constructors).
  * Rust `String`s that are manipulated by byte offsets (the edit applier)
    become lists of bytes (`List Nat`, each entry < 256, produced by the
    UTF-8 encoder `strBytes`); strings manipulated per character (the
    message formatter) become `List Char`.
  * Panics (`unwrap` on `None`/`Err`, `String::replace_range` precondition
    violations) become `Option.none` results, threaded through the pipeline.
-/

namespace Nixf

/-- serde_json::Value. Objects are association lists with distinct keys;
`jGet` looks a key up, as `Value::get` does. -/
inductive Json where
  | null
  | bool (b : Bool)
  | num (n : Int)
  | str (s : String)
  | arr (xs : List Json)
  | obj (fields : List (String × Json))

/-- `Value::get(key)`: field lookup on an object, `None` on any other value. -/
def jGet (j : Json) (k : String) : Option Json :=
  match j with
  | .obj fields => fields.lookup k
  | _ => none

/-- `Value::as_array`. -/
def asArray (j : Json) : Option (List Json) :=
  match j with
  | .arr xs => some xs
  | _ => none

/-- `Value::as_str`. -/
def asStr (j : Json) : Option String :=
  match j with
  | .str s => some s
  | _ => none

/-- `Value::as_i64` (integral numbers only; our `num` carries an `Int`). -/
def asI64 (j : Json) : Option Int :=
  match j with
  | .num n => some n
  | _ => none

/-- `Value::as_u64`: defined exactly when the number is non-negative. -/
def asU64 (j : Json) : Option Nat :=
  match j with
  | .num n => if 0 ≤ n then some n.toNat else none
  | _ => none

/-- The serde_json instance `PartialEq<String> for Value`: a `Value` equals a string
iff it is `Value::String` with equal contents (`rule == sname` in main.rs). -/
def valueEqStr (v : Json) (r : String) : Bool :=
  match v with
  | .str s => s == r
  | _ => false

/- ===== Offset Translator (main.rs lines 73-85) ===== -/

/-- Byte offset at which character `i` of `s` begins (sum of the UTF-8
widths of the preceding characters); for `i = s.length` this is the total
byte length of `s`. -/
def byteOffsetOf (s : List Char) (i : Nat) : Nat :=
  ((s.take i).map Char.utf8Size).sum

/-- Total UTF-8 byte length of `s`. -/
def byteLen (s : List Char) : Nat :=
  (s.map Char.utf8Size).sum

/-- Helper for `build_char_byte_table`: the running byte position is the
accumulator, as in the Rust loop. -/
def buildTableAux (pos : Nat) : List Char → List Nat
  | [] => []
  | c :: cs => pos :: buildTableAux (pos + c.utf8Size) cs

/-- `build_char_byte_table` (main.rs 73-81): one entry per character of the
source text, holding the byte offset at which that character starts. -/
def build_char_byte_table (s : List Char) : List Nat :=
  buildTableAux 0 s

/-- First index of `b` in the list, `none` when absent.  On the strictly
increasing tables produced by `build_char_byte_table` this coincides with
`slice::binary_search` (which returns the unique matching index, `Err`
otherwise). -/
def searchIdx (b : Nat) : List Nat → Option Nat
  | [] => none
  | x :: xs => if x = b then some 0 else (searchIdx b xs).map (· + 1)

/-- `byte_to_char_offset` (main.rs 83-85): `table.binary_search(&byte_pos)
.unwrap()`.  The `.unwrap()` panics when the search fails; the embedding
returns `none` there. -/
def byte_to_char_offset (table : List Nat) (byte_pos : Nat) : Option Nat :=
  searchIdx byte_pos table

/- ===== Message Formatter (main.rs 219-226, `replacen("\x7b\x7d", arg, 1)`) ===== -/

/-- `str::replacen(pat, to, 1)` with the fixed two-character pattern:
replace the leftmost occurrence of the placeholder with `arg`, leave the
rest of the string untouched (and the whole string when no occurrence
exists). -/
def replaceFirst (arg : List Char) : List Char → List Char
  | [] => []
  | [c] => [c]
  | c :: d :: rest =>
    if c = '\x7b' ∧ d = '\x7d' then arg ++ rest
    else c :: replaceFirst arg (d :: rest)

/-- The formatting loop of main.rs 220-226: each successive argument is
substituted by `replacen` into the *current*, partially substituted
string. -/
def format (template : List Char) (args : List (List Char)) : List Char :=
  args.foldl (fun acc a => replaceFirst a acc) template

/-- Modelled from the spec (§4.2): the "first unconsumed occurrence"
semantics, which consumes the placeholders of the template left to right and
never rescans text contributed by an earlier argument.  Used to compare
the `format` of the code against the words of the spec. -/
def formatSpec : List Char → List (List Char) → List Char
  | [], _ => []
  | [c], _ => [c]
  | c :: d :: rest, [] => c :: d :: rest
  | c :: d :: rest, arg :: args =>
    if c = '\x7b' ∧ d = '\x7d' then arg ++ formatSpec rest args
    else c :: formatSpec (d :: rest) (arg :: args)

/-- A substitution argument that is non-empty and contains no brace
character: under this condition the repeated-`replacen` formatting of the code
agrees with the placeholder-consumption semantics of the spec. -/
def braceFreeNE (a : List Char) : Prop :=
  a ≠ [] ∧ '\x7b' ∉ a ∧ '\x7d' ∉ a

instance : DecidablePred braceFreeNE := fun a => by
  unfold braceFreeNE
  infer_instance

/- ===== UTF-8 bytes and the Edit Applier (main.rs 46-71) ===== -/

/-- UTF-8 encoding of one character (what `String::push`/`as_bytes` yield
in Rust). -/
def utf8EncodeChar (c : Char) : List Nat :=
  let n := c.toNat
  if n < 0x80 then [n]
  else if n < 0x800 then
    [0xC0 + n / 0x40, 0x80 + n % 0x40]
  else if n < 0x10000 then
    [0xE0 + n / 0x1000, 0x80 + n / 0x40 % 0x40, 0x80 + n % 0x40]
  else
    [0xF0 + n / 0x40000, 0x80 + n / 0x1000 % 0x40, 0x80 + n / 0x40 % 0x40,
     0x80 + n % 0x40]

/-- UTF-8 byte sequence of a string (`str::as_bytes`). -/
def strBytes (s : List Char) : List Nat :=
  (s.map utf8EncodeChar).flatten

/-- All bytes are ASCII (< 0x80). -/
def allASCII (bs : List Nat) : Bool :=
  bs.all (· < 128)

/-- `str::is_char_boundary(i)`: true at 0 and at the total length, and at
any index whose byte is not a UTF-8 continuation byte; false beyond the
end. -/
def isCharBoundary (bs : List Nat) (i : Nat) : Bool :=
  if i = 0 then true
  else
    match bs[i]? with
    | none => i == bs.length
    | some b => !(128 ≤ b && b < 192)

/-- One edit: byte half-open range into the original text plus replacement
text (main.rs 46-50; `new_text` is kept as UTF-8 bytes since the applier
works on byte offsets). -/
structure Edit where
  start : Nat
  stop : Nat
  new_text : List Nat
deriving DecidableEq

/-- `String::replace_range(start..stop, t)`: panics (`none`) unless both
endpoints are character boundaries and `start ≤ stop`; otherwise splices
the replacement bytes over the range. -/
def replaceRange (bs : List Nat) (rStart rStop : Nat) (t : List Nat) :
    Option (List Nat) :=
  if isCharBoundary bs rStart && isCharBoundary bs rStop && rStart ≤ rStop then
    some (bs.take rStart ++ t ++ bs.drop rStop)
  else none

/-- The loop body of main.rs 64-68: an edit whose end exceeds the current
text length is skipped silently; otherwise `replace_range` runs (and may
panic). -/
def applyStep (acc : Option (List Nat)) (e : Edit) : Option (List Nat) :=
  match acc with
  | none => none
  | some bs =>
    if e.stop ≤ bs.length then replaceRange bs e.start e.stop e.new_text
    else some bs

/-- Stable insertion used to model `sort_by(|a, b| b.range.start.cmp(&a.range.start))`:
`e` goes after every already-placed edit whose start is ≥ its own, so
edits with equal starts keep their original relative order, and the list
is sorted by descending start. -/
def insertDesc (e : Edit) : List Edit → List Edit
  | [] => [e]
  | x :: xs => if e.start ≤ x.start then x :: insertDesc e xs else e :: x :: xs

/-- Stable sort by descending start offset. -/
def sortDesc (edits : List Edit) : List Edit :=
  edits.foldl (fun acc e => insertDesc e acc) []

/-- `apply_fixes_to_content` (main.rs 52-71): returns the content as-is for
an empty edit set, otherwise folds `replace_range` over the edits sorted
by descending start offset.  `none` models a panic inside
`replace_range`. -/
def apply_fixes_to_content (content : List Nat) (edits : List Edit) :
    Option (List Nat) :=
  if edits.isEmpty then some content
  else (sortDesc edits).foldl applyStep (some content)

/- ===== Diagnostic pipeline (process_file, main.rs 87-299, pure part) ===== -/

/-- ariadne::ReportKind as used by the program. -/
inductive ReportKind where
  | error
  | warning
  | advice
deriving DecidableEq

/-- The logical content of one rendered report: kind, rule code, formatted
message, primary span in character offsets, and the note labels (message
plus character span) in order. -/
structure RReport where
  kind : ReportKind
  code : String
  msg : List Char
  startChar : Nat
  stopChar : Nat
  notes : List (List Char × Nat × Nat)
deriving DecidableEq

/-- The read-only configuration that reaches `process_file`. -/
structure Config where
  only : Option String
  ignore : List String
  auto_fix : Bool

/-- Mutable state of the per-file loop: `reports`, `all_edits`, and the
number of multiple-fix warnings printed to stderr. -/
structure PState where
  reports : List RReport
  edits : List Edit
  warnings : Nat
deriving DecidableEq

/-- Severity mapping (main.rs 210-217): `severity.as_i64().unwrap_or(1)`
matched against 0..4, everything else `Error`. -/
def reportKindOfSeverity (sv : Json) : ReportKind :=
  let n := (asI64 sv).getD 1
  if n = 0 then .error
  else if n = 1 then .error
  else if n = 2 then .warning
  else if n = 3 then .advice
  else if n = 4 then .advice
  else .error

/-- Message formatting as performed at main.rs 219-226: fall back to
"Unknown error" for a non-string message, substitute each string argument
in order by `replacen`, skipping non-string arguments. -/
def formatMessage (message args : Json) : List Char :=
  format ((asStr message).getD "Unknown error").data
    (((asArray args).getD []).filterMap (fun a => (asStr a).map String.data))

/-- `range.get("lCur")...offset.as_u64()` and the same for `rCur`
(main.rs 228-235 and the analogous note/edit extractions). -/
def rangeOffsets (spans : Json) : Option (Nat × Nat) :=
  match (jGet spans "lCur").bind (fun l => (jGet l "offset").bind asU64),
        (jGet spans "rCur").bind (fun r => (jGet r "offset").bind asU64) with
  | some s, some e => some (s, e)
  | _, _ => none

/-- One edit of the `edits` array of a fix (main.rs 184-203): requires a string
`newText` and a decodable `range`; otherwise the entry contributes
nothing. -/
def editOfJson (e : Json) : Option Edit :=
  match (jGet e "newText").bind asStr with
  | none => none
  | some t =>
    match jGet e "range" with
    | none => none
    | some r =>
      match rangeOffsets r with
      | none => none
      | some (s, e2) => some ⟨s, e2, strBytes t.data⟩

/-- Note rendering (main.rs 246-281).  Outer `none` models the
`byte_to_char_offset(...).unwrap()` panic; inner `none` means the note
yields no label. -/
def noteLabel (table : List Nat) (note : Json) :
    Option (Option (List Char × Nat × Nat)) :=
  match jGet note "message", jGet note "args", jGet note "range" with
  | some m, some a, some r =>
    match rangeOffsets r with
    | none => some none
    | some (ns, ne) =>
      match byte_to_char_offset table ns, byte_to_char_offset table ne with
      | some sc, some ec => some (some (formatMessage m a, sc, ec))
      | _, _ => none
  | _, _, _ => some none

/-- Fold `noteLabel` over the notes array in order, propagating panics. -/
def noteLabels (table : List Nat) : List Json →
    Option (List (List Char × Nat × Nat))
  | [] => some []
  | n :: ns =>
    match noteLabel table n with
    | none => none
    | some o =>
      match noteLabels table ns with
      | none => none
      | some rest =>
        match o with
        | none => some rest
        | some l => some (l :: rest)

/-- The auto-fix collection block (main.rs 175-207) once entered: returns
the updated state and whether the Rust `continue` fires (i.e. the
diagnostic is consumed by fix collection instead of being rendered). -/
def fixCollect (st : PState) (fixes : Json) : PState × Bool :=
  match asArray fixes with
  | none => (st, false)
  | some [] => (st, false)
  | some (firstFix :: restFixes) =>
    let st1 :=
      if restFixes.length > 0 then
        { st with warnings := st.warnings + 1 }
      else st
    match (jGet firstFix "edits").bind asArray with
    | none => (st1, false)
    | some editsArr =>
      ({ st1 with edits := st1.edits ++ editsArr.filterMap editOfJson }, true)

/-- Rendering of one surviving diagnostic (main.rs 210-283).  `none`
models a panic: a misaligned span offset (`byte_to_char_offset` unwrap),
a non-string `sname` (`sname.as_str().unwrap()`), or a misaligned note
offset.  When the `lCur`/`rCur` offsets of the span cannot be extracted the
diagnostic is silently dropped (`some st`). -/
def renderDiag (table : List Nat) (st : PState)
    (sname message spans severity args notes : Json) : Option PState :=
  match rangeOffsets spans with
  | none => some st
  | some (s, e) =>
    match byte_to_char_offset table s, byte_to_char_offset table e with
    | some sc, some ec =>
      match asStr sname with
      | none => none
      | some code =>
        match noteLabels table ((asArray notes).getD []) with
        | none => none
        | some ls =>
          some { st with reports := st.reports ++
            [⟨reportKindOfSeverity severity, code, formatMessage message args,
              sc, ec, ls⟩] }
    | _, _ => none

/-- What happens to a diagnostic that passed both filters (main.rs
174-283): fix collection only when `auto_fix` is on and the per-file edit
set is still empty, and rendering unless the collection consumed the
diagnostic. -/
def afterFilters (cfg : Config) (table : List Nat) (st : PState)
    (sname message spans severity args notes fixes : Json) : Option PState :=
  if cfg.auto_fix && st.edits.isEmpty then
    match fixCollect st fixes with
    | (st2, true) => some st2
    | (st2, false) => renderDiag table st2 sname message spans severity args notes
  else renderDiag table st sname message spans severity args notes

/-- The seven-field destructuring of main.rs 143-159: all of `sname`,
`message`, `range`, `severity`, `args`, `notes`, `fixes` must be present. -/
def requiredFields (d : Json) :
    Option (Json × Json × Json × Json × Json × Json × Json) :=
  match jGet d "sname", jGet d "message", jGet d "range", jGet d "severity",
        jGet d "args", jGet d "notes", jGet d "fixes" with
  | some sn, some m, some sp, some sv, some ag, some nt, some fx =>
    some (sn, m, sp, sv, ag, nt, fx)
  | _, _, _, _, _, _, _ => none

/-- A diagnostic entry is well-formed when all seven required fields are
present. -/
def hasRequiredFields (d : Json) : Bool :=
  (requiredFields d).isSome

/-- One iteration of the diagnostics loop (main.rs 142-285): skip on
missing fields, apply the `--only` filter, then the ignore filter, then
fix collection / rendering. -/
def processDiag (cfg : Config) (table : List Nat) (st : PState) (diag : Json) :
    Option PState :=
  match requiredFields diag with
  | none => some st
  | some (sname, message, spans, severity, args, notes, fixes) =>
    if (match cfg.only with
        | some rule => !valueEqStr sname rule
        | none => false) then some st
    else if cfg.ignore.any (fun rule => valueEqStr sname rule) then some st
    else afterFilters cfg table st sname message spans severity args notes fixes

/-- The whole diagnostics loop, threading the per-file state. -/
def processDiags (cfg : Config) (table : List Nat) :
    List Json → PState → Option PState
  | [], st => some st
  | d :: ds, st =>
    match processDiag cfg table st d with
    | none => none
    | some st2 => processDiags cfg table ds st2

/-- The pure part of `process_file` once the JSON from the analyzer parsed:
build the table, run the loop over the top-level array (a non-array
payload yields the empty state, as `as_array` returns `None` and the loop
never runs). -/
def processFileDiags (cfg : Config) (input : List Char) (payload : Json) :
    Option PState :=
  let table := build_char_byte_table input
  match asArray payload with
  | none => some ⟨[], [], 0⟩
  | some ds => processDiags cfg table ds ⟨[], [], 0⟩

/-- main.rs 325-331: `exit(1)` iff the aggregated report list is
non-empty, normal termination (status 0) otherwise. -/
def exitStatus (allReports : List RReport) : Nat :=
  if allReports.isEmpty then 0 else 1

/- ===== Fixtures used by the pipeline theorems ===== -/

/-- A well-formed diagnostic with severity 3 (Advice), empty notes/fixes,
span bytes 0..1. -/
def advDiag : Json :=
  .obj [("sname", .str "r"), ("message", .str "m"),
        ("range", .obj [("lCur", .obj [("offset", .num 0)]),
                        ("rCur", .obj [("offset", .num 1)])]),
        ("severity", .num 3), ("args", .arr []), ("notes", .arr []),
        ("fixes", .arr [])]

/-- A well-formed diagnostic carrying one fix whose single edit replaces
bytes 0..1 with "Z". -/
def fixDiag : Json :=
  .obj [("sname", .str "r"), ("message", .str "m"),
        ("range", .obj [("lCur", .obj [("offset", .num 0)]),
                        ("rCur", .obj [("offset", .num 1)])]),
        ("severity", .num 2), ("args", .arr []), ("notes", .arr []),
        ("fixes", .arr [.obj [("edits", .arr [.obj [("newText", .str "Z"),
          ("range", .obj [("lCur", .obj [("offset", .num 0)]),
                          ("rCur", .obj [("offset", .num 1)])])]])]])]

/- ===================== Lemmas: Offset Translator ===================== -/

theorem byteOffsetOf_map_take (s : List Char) (i : Nat) :
    byteOffsetOf s i = ((s.map Char.utf8Size).take i).sum := by
  simp [byteOffsetOf, List.map_take]

theorem byteOffsetOf_lt_succ (s : List Char) (i : Nat) (h : i < s.length) :
    byteOffsetOf s i < byteOffsetOf s (i + 1) := by
  rw [byteOffsetOf_map_take, byteOffsetOf_map_take]
  have hl : i < (s.map Char.utf8Size).length := by simpa using h
  rw [List.sum_take_succ _ _ hl]
  simp only [List.getElem_map]
  have := Char.utf8Size_pos s[i]
  omega

theorem sum_take_le (M : List Nat) (i : Nat) : (M.take i).sum ≤ M.sum := by
  conv_rhs => rw [← List.take_append_drop i M]
  rw [List.sum_append]
  exact Nat.le_add_right _ _

theorem byteOffsetOf_mono (s : List Char) {i j : Nat} (h : i ≤ j) :
    byteOffsetOf s i ≤ byteOffsetOf s j := by
  rw [byteOffsetOf_map_take, byteOffsetOf_map_take]
  have htt : ((s.map Char.utf8Size).take j).take i = (s.map Char.utf8Size).take i := by
    rw [List.take_take]
    simp [Nat.min_eq_left h]
  calc ((s.map Char.utf8Size).take i).sum
      = (((s.map Char.utf8Size).take j).take i).sum := by rw [htt]
    _ ≤ ((s.map Char.utf8Size).take j).sum := sum_take_le _ _

theorem byteOffsetOf_strict (s : List Char) {i j : Nat} (hij : i < j)
    (hi : i < s.length) : byteOffsetOf s i < byteOffsetOf s j :=
  lt_of_lt_of_le (byteOffsetOf_lt_succ s i hi) (byteOffsetOf_mono s hij)

theorem byteLen_eq (s : List Char) : byteLen s = byteOffsetOf s s.length := by
  simp [byteLen, byteOffsetOf]

theorem byteOffsetOf_cons_zero (c : Char) (cs : List Char) :
    byteOffsetOf (c :: cs) 0 = 0 := by
  simp [byteOffsetOf]

theorem byteOffsetOf_cons_succ (c : Char) (cs : List Char) (i : Nat) :
    byteOffsetOf (c :: cs) (i + 1) = c.utf8Size + byteOffsetOf cs i := by
  simp [byteOffsetOf, List.take_succ_cons]

theorem buildTableAux_eq (s : List Char) : ∀ pos : Nat,
    buildTableAux pos s = (List.range s.length).map (fun i => pos + byteOffsetOf s i) := by
  induction s with
  | nil => intro pos; rfl
  | cons c cs ih =>
    intro pos
    simp only [buildTableAux, ih, List.length_cons, List.range_succ_eq_map,
      List.map_cons, List.map_map]
    congr 1
    apply List.map_congr_left
    intro i _
    simp [Function.comp, byteOffsetOf_cons_succ, Nat.add_assoc]

theorem build_table_eq (s : List Char) :
    build_char_byte_table s = (List.range s.length).map (byteOffsetOf s) := by
  have := buildTableAux_eq s 0
  simpa [build_char_byte_table] using this

theorem build_table_getElem? (s : List Char) (i : Nat) :
    (build_char_byte_table s)[i]? =
      if i < s.length then some (byteOffsetOf s i) else none := by
  rw [build_table_eq, List.getElem?_map]
  by_cases h : i < s.length
  · rw [List.getElem?_range h]; simp [h]
  · have : (List.range s.length)[i]? = none := by
      apply List.getElem?_eq_none
      simpa using Nat.le_of_not_lt h
    simp [this, h]

theorem searchIdx_sound {b : Nat} : ∀ {l : List Nat} {i : Nat},
    searchIdx b l = some i → l[i]? = some b := by
  intro l
  induction l with
  | nil => intro i h; simp [searchIdx] at h
  | cons x xs ih =>
    intro i h
    by_cases hx : x = b
    · simp [searchIdx, hx] at h
      subst h; simp [hx]
    · simp [searchIdx, hx] at h
      obtain ⟨i', hi', rfl⟩ := h
      simpa using ih hi'

theorem searchIdx_complete {b : Nat} : ∀ {l : List Nat} {i : Nat},
    l[i]? = some b → (∀ j, j < i → l[j]? ≠ some b) → searchIdx b l = some i := by
  intro l
  induction l with
  | nil => intro i h _; simp at h
  | cons x xs ih =>
    intro i h hj
    cases i with
    | zero => simp at h; simp [searchIdx, h]
    | succ i' =>
      have hx : x ≠ b := by
        intro hx
        exact hj 0 (Nat.succ_pos _) (by simp [hx])
      have h' : xs[i']? = some b := by simpa using h
      have hj' : ∀ j, j < i' → xs[j]? ≠ some b := by
        intro j hjlt hcon
        exact hj (j + 1) (by omega) (by simpa using hcon)
      simp [searchIdx, hx, ih h' hj']

/-- C1 amended, core characterization: the translation succeeds exactly at
the byte offsets at which a character of the text begins. -/
theorem translate_iff (s : List Char) (b i : Nat) :
    byte_to_char_offset (build_char_byte_table s) b = some i ↔
      (i < s.length ∧ byteOffsetOf s i = b) := by
  constructor
  · intro h
    have hg := searchIdx_sound (b := b) h
    rw [build_table_getElem?] at hg
    by_cases hi : i < s.length
    · simp [hi] at hg
      exact ⟨hi, hg⟩
    · simp [hi] at hg
  · rintro ⟨hi, hb⟩
    apply searchIdx_complete
    · rw [build_table_getElem?]; simp [hi, hb]
    · intro j hj hcon
      rw [build_table_getElem?] at hcon
      have hjlen : j < s.length := by omega
      simp [hjlen] at hcon
      have := byteOffsetOf_strict s hj hjlen
      omega

theorem translate_byteLen_none (s : List Char) :
    byte_to_char_offset (build_char_byte_table s) (byteLen s) = none := by
  cases h : byte_to_char_offset (build_char_byte_table s) (byteLen s) with
  | none => rfl
  | some i =>
    obtain ⟨hi, hb⟩ := (translate_iff s (byteLen s) i).mp h
    have := byteOffsetOf_strict s hi hi
    rw [← byteLen_eq] at this
    omega

/-- C1: the claim states that `translate(build(text), byte_offset)`
succeeds at *every* valid character boundary, explicitly including an
offset equal to the byte length of the text.  The table of the code holds only
character *start* offsets, so the end-of-text boundary is not in the
table, `binary_search` fails, and the `.unwrap()` panics: for the text
"ab" (byte length 2) the translation of offset 2 fails even though 2 is a
valid character boundary. -/
theorem C1_counterexample :
    byteLen "ab".data = 2 ∧
    byte_to_char_offset (build_char_byte_table "ab".data) 2 = none :=
  ⟨rfl, rfl⟩

/-- C1 (amended): `translate(build(text), b)` returns `some i` exactly
when `b` is the byte offset at which character `i` of the text begins; it
fails at every other offset — non-boundary offsets, but also the offset
equal to the byte length of the text (a valid character boundary at which
no character begins). -/
theorem C1_translate_char_start :
    (∀ (s : List Char) (b i : Nat),
        byte_to_char_offset (build_char_byte_table s) b = some i ↔
          (i < s.length ∧ byteOffsetOf s i = b)) ∧
    (∀ s : List Char,
        byte_to_char_offset (build_char_byte_table s) (byteLen s) = none) :=
  ⟨translate_iff, translate_byteLen_none⟩

/- ===================== Lemmas: Edit Applier ===================== -/

theorem insertDesc_perm (e : Edit) (l : List Edit) :
    (insertDesc e l).Perm (e :: l) := by
  induction l with
  | nil => exact List.Perm.refl _
  | cons x xs ih =>
    by_cases h : e.start ≤ x.start
    · simp only [insertDesc, h, if_pos]
      exact (List.Perm.cons x ih).trans (List.Perm.swap e x xs)
    · simp [insertDesc, h]

theorem sortDesc_foldl_perm : ∀ (l acc : List Edit),
    (l.foldl (fun a e => insertDesc e a) acc).Perm (acc ++ l) := by
  intro l
  induction l with
  | nil => intro acc; simp
  | cons e l ih =>
    intro acc
    have h1 := ih (insertDesc e acc)
    have h2 : (insertDesc e acc ++ l).Perm (acc ++ e :: l) := by
      have ha : (insertDesc e acc).Perm (e :: acc) := insertDesc_perm e acc
      exact (ha.append_right l).trans List.perm_middle.symm
    exact h1.trans h2

theorem sortDesc_perm (edits : List Edit) : (sortDesc edits).Perm edits := by
  simpa using sortDesc_foldl_perm edits []

theorem mem_insertDesc {x e : Edit} {l : List Edit} :
    x ∈ insertDesc e l ↔ x = e ∨ x ∈ l := by
  rw [(insertDesc_perm e l).mem_iff]
  simp

theorem insertDesc_pairwise (e : Edit) {l : List Edit}
    (h : l.Pairwise (fun a b => b.start ≤ a.start)) :
    (insertDesc e l).Pairwise (fun a b => b.start ≤ a.start) := by
  induction l with
  | nil => simp [insertDesc]
  | cons x xs ih =>
    rw [List.pairwise_cons] at h
    obtain ⟨hx, hxs⟩ := h
    by_cases hle : e.start ≤ x.start
    · simp only [insertDesc, hle, if_pos]
      rw [List.pairwise_cons]
      refine ⟨?_, ih hxs⟩
      intro y hy
      rcases mem_insertDesc.mp hy with rfl | hy'
      · exact hle
      · exact hx y hy'
    · simp only [insertDesc, if_neg hle]
      rw [List.pairwise_cons]
      refine ⟨?_, by rw [List.pairwise_cons]; exact ⟨hx, hxs⟩⟩
      intro y hy
      rcases List.mem_cons.mp hy with rfl | hy'
      · omega
      · have := hx y hy'
        omega

theorem sortDesc_foldl_pairwise : ∀ (l acc : List Edit),
    acc.Pairwise (fun a b => b.start ≤ a.start) →
    (l.foldl (fun a e => insertDesc e a) acc).Pairwise (fun a b => b.start ≤ a.start) := by
  intro l
  induction l with
  | nil => intro acc h; simpa using h
  | cons e l ih =>
    intro acc h
    exact ih (insertDesc e acc) (insertDesc_pairwise e h)

theorem sortDesc_pairwise (edits : List Edit) :
    (sortDesc edits).Pairwise (fun a b => b.start ≤ a.start) :=
  sortDesc_foldl_pairwise edits [] (by simp)

/-- C2: `apply_fixes_to_content` returns the original content untouched on
an empty edit set; on a non-empty set it folds the edits in descending
start-offset order (the sorted list is a permutation of the input, sorted
descending by start, mirroring the `sort_by(b.start.cmp(&a.start))` of the
source); and the concrete example applies both substitutions without
offset corruption: "0123456789" with edits [5..8 → "XY", 0..2 → "Z"]
becomes "Z234XY89". -/
theorem C2_apply_fixes :
    (∀ content : List Nat, apply_fixes_to_content content [] = some content) ∧
    (∀ (content : List Nat) (edits : List Edit),
        apply_fixes_to_content content edits =
          if edits.isEmpty then some content
          else (sortDesc edits).foldl applyStep (some content)) ∧
    (∀ edits : List Edit, (sortDesc edits).Perm edits ∧
        (sortDesc edits).Pairwise (fun a b => b.start ≤ a.start)) ∧
    apply_fixes_to_content (strBytes "0123456789".data)
        [⟨5, 8, strBytes "XY".data⟩, ⟨0, 2, strBytes "Z".data⟩]
      = some (strBytes "Z234XY89".data) :=
  ⟨fun _ => rfl, fun _ _ => rfl,
   fun edits => ⟨sortDesc_perm edits, sortDesc_pairwise edits⟩, rfl⟩

/- ===================== Lemmas: applier error handling ===================== -/

theorem allASCII_isCharBoundary {bs : List Nat} (ha : allASCII bs = true)
    {i : Nat} (hi : i ≤ bs.length) : isCharBoundary bs i = true := by
  unfold isCharBoundary
  by_cases h0 : i = 0
  · simp [h0]
  · simp only [h0, if_false]
    cases hb : bs[i]? with
    | none =>
      have : bs.length ≤ i := by
        by_contra hc
        push_neg at hc
        rw [List.getElem?_eq_getElem hc] at hb
        exact Option.noConfusion hb
      have : i = bs.length := le_antisymm hi this
      simp [this]
    | some b =>
      have hmem : b ∈ bs := List.getElem?_mem hb
      have hlt : b < 128 := by
        rw [allASCII, List.all_eq_true] at ha
        simpa using ha b hmem
      simp only [Bool.not_eq_eq_eq_not, Bool.not_true]
      rw [Bool.and_eq_false_iff]
      left
      simp [Nat.not_le]
      omega

theorem allASCII_append {xs ys : List Nat} (hx : allASCII xs = true)
    (hy : allASCII ys = true) : allASCII (xs ++ ys) = true := by
  rw [allASCII, List.all_eq_true] at *
  intro x hx'
  rcases List.mem_append.mp hx' with h | h
  · exact hx x h
  · exact hy x h

theorem allASCII_take {bs : List Nat} (h : allASCII bs = true) (i : Nat) :
    allASCII (bs.take i) = true := by
  rw [allASCII, List.all_eq_true] at *
  intro x hx
  exact h x (List.take_subset i bs hx)

theorem allASCII_drop {bs : List Nat} (h : allASCII bs = true) (i : Nat) :
    allASCII (bs.drop i) = true := by
  rw [allASCII, List.all_eq_true] at *
  intro x hx
  exact h x (List.drop_subset i bs hx)

theorem replaceRange_ok {bs t : List Nat} (ha : allASCII bs = true)
    (ht : allASCII t = true) {rStart rStop : Nat} (hse : rStart ≤ rStop)
    (hel : rStop ≤ bs.length) :
    replaceRange bs rStart rStop t = some (bs.take rStart ++ t ++ bs.drop rStop) ∧
      allASCII (bs.take rStart ++ t ++ bs.drop rStop) = true := by
  constructor
  · rw [replaceRange, if_pos]
    rw [allASCII_isCharBoundary ha (le_trans hse hel),
        allASCII_isCharBoundary ha hel]
    simpa using hse
  · exact allASCII_append (allASCII_append (allASCII_take ha _) ht) (allASCII_drop ha _)

theorem apply_fold_ok : ∀ (es : List Edit) (bs : List Nat),
    allASCII bs = true →
    (∀ e ∈ es, e.start ≤ e.stop ∧ allASCII e.new_text = true) →
    ∃ r, es.foldl applyStep (some bs) = some r ∧ allASCII r = true := by
  intro es
  induction es with
  | nil => intro bs hb _; exact ⟨bs, rfl, hb⟩
  | cons e es ih =>
    intro bs hb hes
    obtain ⟨hse, het⟩ := hes e (List.mem_cons_self e es)
    have hes' : ∀ e' ∈ es, e'.start ≤ e'.stop ∧ allASCII e'.new_text = true :=
      fun e' h' => hes e' (List.mem_cons_of_mem e h')
    rw [List.foldl_cons]
    by_cases hl : e.stop ≤ bs.length
    · obtain ⟨hrr, hra⟩ := replaceRange_ok hb het hse hl
      have : applyStep (some bs) e = some (bs.take e.start ++ e.new_text ++ bs.drop e.stop) := by
        simp [applyStep, hl, hrr]
      rw [this]
      exact ih _ hra hes'
    · have : applyStep (some bs) e = some bs := by simp [applyStep, hl]
      rw [this]
      exact ih bs hb hes'

/-- C9: the claim states that `apply_fixes_to_content` returns a result
without signalling an error for *every* edit set and input text.  The
out-of-bounds guard only checks `end <= len`: an edit whose range has
`start > end`, such as 5..2 on "0123456789", passes the guard and then
panics inside `String::replace_range` (slice index starts after it ends),
so application fails. -/
theorem C9_counterexample :
    apply_fixes_to_content (strBytes "0123456789".data) [⟨5, 2, []⟩] = none :=
  rfl

/-- C9 (amended): an edit whose end exceeds the current text length at the
moment it is processed is silently skipped, leaving the text unchanged by
that edit, and application proceeds; and `apply_fixes_to_content` returns
a result without signalling an error for every edit set whose edits each
satisfy `start ≤ end` with ASCII replacement text, applied to ASCII
content (for such inputs every byte index is a character boundary, so
`replace_range` cannot panic). -/
theorem C9_skip_and_total :
    (∀ (bs : List Nat) (e : Edit), bs.length < e.stop →
        applyStep (some bs) e = some bs) ∧
    (∀ (content : List Nat) (edits : List Edit), allASCII content = true →
        (∀ e ∈ edits, e.start ≤ e.stop ∧ allASCII e.new_text = true) →
        ∃ r, apply_fixes_to_content content edits = some r) := by
  constructor
  · intro bs e h
    simp [applyStep, Nat.not_le.mpr h]
  · intro content edits hc he
    rw [apply_fixes_to_content]
    by_cases hnil : edits.isEmpty
    · exact ⟨content, by simp [hnil]⟩
    · simp only [hnil, if_false]
      have he' : ∀ e ∈ sortDesc edits, e.start ≤ e.stop ∧ allASCII e.new_text = true :=
        fun e h' => he e ((sortDesc_perm edits).mem_iff.mp h')
      obtain ⟨r, hr, _⟩ := apply_fold_ok (sortDesc edits) content hc he'
      exact ⟨r, hr⟩

theorem C9_witness :
    (strBytes "ab".data).length < (⟨0, 5, []⟩ : Edit).stop ∧
    applyStep (some (strBytes "ab".data)) ⟨0, 5, []⟩ = some (strBytes "ab".data) ∧
    (∃ r, apply_fixes_to_content (strBytes "abc".data)
        [⟨0, 1, strBytes "Z".data⟩] = some r) :=
  ⟨by decide,
   C9_skip_and_total.1 (strBytes "ab".data) ⟨0, 5, []⟩ (by decide),
   C9_skip_and_total.2 (strBytes "abc".data) [⟨0, 1, strBytes "Z".data⟩]
     (by decide) (by decide)⟩

/- ===================== Lemmas: Message Formatter ===================== -/

theorem formatSpec_nil_args : ∀ t : List Char, formatSpec t [] = t
  | [] => rfl
  | [_] => rfl
  | _ :: _ :: _ => rfl

theorem formatSpec_single (a : List Char) :
    ∀ t : List Char, formatSpec t [a] = replaceFirst a t := by
  intro t
  induction t with
  | nil => rfl
  | cons c rest ih =>
    cases rest with
    | nil => rfl
    | cons d r =>
      by_cases hb : c = '\x7b' ∧ d = '\x7d'
      · simp [formatSpec, replaceFirst, hb, formatSpec_nil_args]
      · simp [formatSpec, replaceFirst, hb, ih]

theorem formatSpec_cons_of_guard {c : Char} {X : List Char}
    (h : ¬(c = '\x7b' ∧ X.head? = some '\x7d')) (as : List (List Char)) :
    formatSpec (c :: X) as = c :: formatSpec X as := by
  cases X with
  | nil => cases as <;> rfl
  | cons w X' =>
    cases as with
    | nil => rw [formatSpec_nil_args, formatSpec_nil_args]
    | cons b as' =>
      have hg : ¬(c = '\x7b' ∧ w = '\x7d') := by
        intro ⟨h1, h2⟩
        exact h ⟨h1, by simp [h2]⟩
      simp [formatSpec, hg]

theorem formatSpec_append_of_bracefree {a : List Char} (ha : '\x7b' ∉ a) :
    ∀ (r : List Char) (as : List (List Char)),
      formatSpec (a ++ r) as = a ++ formatSpec r as := by
  induction a with
  | nil => intro r as; rfl
  | cons x a' ih =>
    intro r as
    have hx : x ≠ '\x7b' := fun h => ha (h ▸ List.mem_cons_self x a')
    have ha' : '\x7b' ∉ a' := fun h => ha (List.mem_cons_of_mem x h)
    rw [List.cons_append]
    rw [formatSpec_cons_of_guard (by intro ⟨h1, _⟩; exact hx h1) as]
    rw [ih ha' r as]
    rfl

theorem replaceFirst_head_ne {a : List Char} (ha : braceFreeNE a)
    {d : Char} (hd : d ≠ '\x7d') (rest : List Char) :
    (replaceFirst a (d :: rest)).head? ≠ some '\x7d' := by
  obtain ⟨hne, hlb, hrb⟩ := ha
  cases rest with
  | nil =>
    simp [replaceFirst]
    exact hd
  | cons e r2 =>
    by_cases hb : d = '\x7b' ∧ e = '\x7d'
    · simp only [replaceFirst, hb, and_self, if_pos]
      cases a with
      | nil => exact absurd rfl hne
      | cons h0 a0 =>
        have : h0 ≠ '\x7d' := fun hh => hrb (hh ▸ List.mem_cons_self h0 a0)
        simpa using this
    · simp only [replaceFirst, hb, if_neg hb]
      simpa using hd

theorem formatSpec_replaceFirst {a : List Char} (ha : braceFreeNE a) :
    ∀ (t : List Char) (as : List (List Char)),
      formatSpec (replaceFirst a t) as = formatSpec t (a :: as) := by
  intro t
  induction t with
  | nil => intro as; rfl
  | cons c rest ih =>
    intro as
    cases rest with
    | nil => cases as <;> rfl
    | cons d r =>
      by_cases hb : c = '\x7b' ∧ d = '\x7d'
      · simp only [replaceFirst, hb, and_self, if_pos]
        rw [formatSpec_append_of_bracefree ha.2.1 r as]
        simp [formatSpec, hb]
      · simp only [replaceFirst, if_neg hb]
        cases as with
        | nil =>
          rw [formatSpec_nil_args, formatSpec_single, replaceFirst, if_neg hb]
        | cons b as' =>
          have hguard : ¬(c = '\x7b' ∧ (replaceFirst a (d :: r)).head? = some '\x7d') := by
            intro ⟨hc, hh⟩
            have hd : d ≠ '\x7d' := by
              intro hdq
              exact hb ⟨hc, hdq⟩
            exact replaceFirst_head_ne ha hd r hh
          rw [formatSpec_cons_of_guard hguard (b :: as')]
          rw [ih (b :: as')]
          have : formatSpec (c :: d :: r) (a :: b :: as') =
              c :: formatSpec (d :: r) (a :: b :: as') := by
            simp [formatSpec, hb]
          rw [this]

theorem format_eq_formatSpec :
    ∀ (as : List (List Char)) (t : List Char),
      (∀ a ∈ as, braceFreeNE a) → format t as = formatSpec t as := by
  intro as
  induction as with
  | nil => intro t _; exact (formatSpec_nil_args t).symm
  | cons a as ih =>
    intro t hall
    have ha : braceFreeNE a := hall a (List.mem_cons_self a as)
    have hall' : ∀ x ∈ as, braceFreeNE x := fun x h => hall x (List.mem_cons_of_mem a h)
    have h1 : format t (a :: as) = format (replaceFirst a t) as := rfl
    rw [h1, ih (replaceFirst a t) hall', formatSpec_replaceFirst ha t as]

/-- C3: the claim describes the "first unconsumed occurrence" semantics —
each argument fills the next placeholder of the template, and arguments
beyond the number of placeholders are silently unused.  The code instead
re-runs `replacen` on the already-substituted string, so placeholder text
contributed by an earlier argument is consumed by a later one: on the
template "\x7b\x7d" with arguments ["\x7b\x7d", "x"], the claimed
semantics (`formatSpec`, modelled from the words of the spec) leaves "\x7b\x7d"
while the code produces "x". -/
theorem C3_counterexample :
    format "\x7b\x7d".data ["\x7b\x7d".data, "x".data] = "x".data ∧
    formatSpec "\x7b\x7d".data ["\x7b\x7d".data, "x".data] = "\x7b\x7d".data ∧
    "x".data ≠ "\x7b\x7d".data :=
  ⟨rfl, rfl, by decide⟩

/-- C3 (amended): `format` substitutes each successive argument for the
first occurrence of the placeholder in the *current*, partially
substituted string (so placeholder text introduced by an earlier argument
can be consumed by a later one); extra placeholders remain literally in
the output and extra arguments are silently unused.  When every argument
is non-empty and brace-free this coincides with the claimed
placeholder-consumption semantics, and the three examples of the claim hold. -/
theorem C3_format_replacen :
    (∀ t : List Char, format t [] = t) ∧
    (∀ (t a : List Char) (as : List (List Char)),
        format t (a :: as) = format (replaceFirst a t) as) ∧
    (∀ (as : List (List Char)) (t : List Char),
        (∀ a ∈ as, braceFreeNE a) → format t as = formatSpec t as) ∧
    format "\x7b\x7d likes \x7b\x7d".data ["alice".data, "pizza".data]
      = "alice likes pizza".data ∧
    format "\x7b\x7d and \x7b\x7d".data ["x".data] = "x and \x7b\x7d".data ∧
    format "no placeholders".data ["x".data] = "no placeholders".data :=
  ⟨fun _ => rfl, fun _ _ _ => rfl, format_eq_formatSpec, rfl, rfl, rfl⟩

theorem C3_witness :
    (∀ a ∈ ["alice".data], braceFreeNE a) ∧
    format "\x7b\x7d".data ["alice".data] = formatSpec "\x7b\x7d".data ["alice".data] :=
  ⟨by decide, C3_format_replacen.2.2.1 ["alice".data] "\x7b\x7d".data (by decide)⟩

/- ===================== Pipeline claim theorems ===================== -/

/-- C4: the exit status is 1 exactly when the aggregate report list after
filtering is non-empty, and 0 otherwise; presence, not severity, decides —
witnessed by a concrete run whose only surviving diagnostic is
Advice-level (severity 3) and which still exits 1. -/
theorem C4_exit_status :
    (∀ rs : List RReport, exitStatus rs = 1 ↔ rs ≠ []) ∧
    (∀ rs : List RReport, exitStatus rs = 0 ↔ rs = []) ∧
    processFileDiags ⟨none, [], false⟩ "abc".data (.arr [advDiag])
      = some ⟨[⟨.advice, "r", "m".data, 0, 1, []⟩], [], 0⟩ ∧
    exitStatus [⟨.advice, "r", "m".data, 0, 1, []⟩] = 1 := by
  refine ⟨?_, ?_, rfl, rfl⟩
  · intro rs; cases rs <;> simp [exitStatus]
  · intro rs; cases rs <;> simp [exitStatus]

/-- C5: the severity-to-kind table is exactly 0 → Error, 1 → Error,
2 → Warning, 3 → Advice, 4 → Advice, and anything else — any other
integer, or a severity value that is not an integer at all (so that
`as_i64` fails and the `unwrap_or(1)` default kicks in) — maps to
Error. -/
theorem C5_severity_mapping :
    reportKindOfSeverity (.num 0) = .error ∧
    reportKindOfSeverity (.num 1) = .error ∧
    reportKindOfSeverity (.num 2) = .warning ∧
    reportKindOfSeverity (.num 3) = .advice ∧
    reportKindOfSeverity (.num 4) = .advice ∧
    (∀ n : Int, n ≠ 0 → n ≠ 1 → n ≠ 2 → n ≠ 3 → n ≠ 4 →
        reportKindOfSeverity (.num n) = .error) ∧
    (∀ sv : Json, asI64 sv = none → reportKindOfSeverity sv = .error) := by
  refine ⟨rfl, rfl, rfl, rfl, rfl, ?_, ?_⟩
  · intro n h0 h1 h2 h3 h4
    simp [reportKindOfSeverity, asI64, h0, h1, h2, h3, h4]
  · intro sv h
    simp [reportKindOfSeverity, h]

theorem C5_witness :
    reportKindOfSeverity (.num 7) = .error ∧
    reportKindOfSeverity (.str "high") = .error :=
  ⟨C5_severity_mapping.2.2.2.2.2.1 7 (by decide) (by decide) (by decide)
      (by decide) (by decide),
   C5_severity_mapping.2.2.2.2.2.2 (.str "high") rfl⟩

/-- C6: per-diagnostic filtering before rendering or fix collection —
(a) with an `--only` rule active, a diagnostic whose rule identifier does
not match it is skipped (the state is unchanged, nothing is rendered or
collected); (b) otherwise a diagnostic whose rule identifier is in the
ignore set is skipped; (c) otherwise the diagnostic proceeds to fix
collection / rendering; and both comparisons are exact string equality on
the rule identifier (a non-string `sname` matches nothing). -/
theorem C6_filtering :
    (∀ (cfg : Config) (table : List Nat) (st : PState) (diag : Json)
        sn m sp sv ag nt fx rule,
        requiredFields diag = some (sn, m, sp, sv, ag, nt, fx) →
        cfg.only = some rule → valueEqStr sn rule = false →
        processDiag cfg table st diag = some st) ∧
    (∀ (cfg : Config) (table : List Nat) (st : PState) (diag : Json)
        sn m sp sv ag nt fx,
        requiredFields diag = some (sn, m, sp, sv, ag, nt, fx) →
        (cfg.only = none ∨ ∃ rule, cfg.only = some rule ∧ valueEqStr sn rule = true) →
        (∃ rule ∈ cfg.ignore, valueEqStr sn rule = true) →
        processDiag cfg table st diag = some st) ∧
    (∀ (cfg : Config) (table : List Nat) (st : PState) (diag : Json)
        sn m sp sv ag nt fx,
        requiredFields diag = some (sn, m, sp, sv, ag, nt, fx) →
        (cfg.only = none ∨ ∃ rule, cfg.only = some rule ∧ valueEqStr sn rule = true) →
        (∀ rule ∈ cfg.ignore, valueEqStr sn rule = false) →
        processDiag cfg table st diag =
          afterFilters cfg table st sn m sp sv ag nt fx) ∧
    (∀ s r : String, valueEqStr (.str s) r = true ↔ s = r) ∧
    (∀ (v : Json) (r : String), valueEqStr v r = true → v = .str r) := by
  refine ⟨?_, ?_, ?_, ?_, ?_⟩
  · intro cfg table st diag sn m sp sv ag nt fx rule hreq honly hne
    simp [processDiag, hreq, honly, hne]
  · intro cfg table st diag sn m sp sv ag nt fx hreq honly hign
    obtain ⟨rule, hrmem, hrq⟩ := hign
    have hany : cfg.ignore.any (fun rule => valueEqStr sn rule) = true :=
      List.any_eq_true.mpr ⟨rule, hrmem, hrq⟩
    rcases honly with hnone | ⟨r0, hr0, hq0⟩
    · simp [processDiag, hreq, hnone, hany]
    · simp [processDiag, hreq, hr0, hq0, hany]
  · intro cfg table st diag sn m sp sv ag nt fx hreq honly hign
    have hany : cfg.ignore.any (fun rule => valueEqStr sn rule) = false := by
      rw [List.any_eq_false]
      intro rule hrmem
      simp [hign rule hrmem]
    rcases honly with hnone | ⟨r0, hr0, hq0⟩
    · simp [processDiag, hreq, hnone, hany]
    · simp [processDiag, hreq, hr0, hq0, hany]
  · intro s r
    simp [valueEqStr]
  · intro v r h
    cases v <;> simp [valueEqStr] at h
    simp [h]

theorem C6_witness :
    requiredFields advDiag = some (.str "r", .str "m",
      .obj [("lCur", .obj [("offset", .num 0)]),
            ("rCur", .obj [("offset", .num 1)])],
      .num 3, .arr [], .arr [], .arr []) ∧
    valueEqStr (.str "r") "E2" = false ∧
    processDiag ⟨some "E2", [], false⟩ [] ⟨[], [], 0⟩ advDiag = some ⟨[], [], 0⟩ :=
  ⟨rfl, rfl,
   C6_filtering.1 ⟨some "E2", [], false⟩ [] ⟨[], [], 0⟩ advDiag
     (.str "r") (.str "m")
     (.obj [("lCur", .obj [("offset", .num 0)]),
            ("rCur", .obj [("offset", .num 1)])])
     (.num 3) (.arr []) (.arr []) (.arr []) "E2" rfl rfl rfl⟩

theorem fixCollect_single (st : PState) (f1 : Json) :
    fixCollect st (.arr [f1]) =
      (match (jGet f1 "edits").bind asArray with
       | none => (st, false)
       | some ea =>
         (⟨st.reports, st.edits ++ ea.filterMap editOfJson, st.warnings⟩, true)) :=
  rfl

theorem fixCollect_multi (st : PState) (f1 f2 : Json) (fs : List Json) :
    fixCollect st (.arr (f1 :: f2 :: fs)) =
      (match (jGet f1 "edits").bind asArray with
       | none => (⟨st.reports, st.edits, st.warnings + 1⟩, false)
       | some ea =>
         (⟨st.reports, st.edits ++ ea.filterMap editOfJson, st.warnings + 1⟩, true)) := by
  have hpos : (f2 :: fs).length > 0 := by simp
  unfold fixCollect
  simp only [asArray]
  rw [if_pos hpos]

/-- C7: with auto-fix enabled, fix collection happens only while the
per-file working edit set is still empty — as soon as any edit has been
queued, every later diagnostic takes the normal rendering path untouched
by the collection block; and a diagnostic carrying more than one Fix
yields exactly one additional warning while queueing only the edits of the first Fix (the collection result on `first :: rest` equals the result on
`[first]` except for the single extra warning). -/
theorem C7_one_fix_per_file :
    (∀ (cfg : Config) (table : List Nat) (st : PState) sn m sp sv ag nt fx,
        st.edits ≠ [] →
        afterFilters cfg table st sn m sp sv ag nt fx =
          renderDiag table st sn m sp sv ag nt) ∧
    (∀ (table : List Nat) (st : PState) sn m sp sv ag nt (st2 : PState),
        renderDiag table st sn m sp sv ag nt = some st2 →
        st2.edits = st.edits ∧ st2.warnings = st.warnings) ∧
    (∀ (st : PState) (f1 : Json) (rest : List Json), rest ≠ [] →
        fixCollect st (.arr (f1 :: rest)) =
          (⟨(fixCollect st (.arr [f1])).1.reports,
            (fixCollect st (.arr [f1])).1.edits,
            (fixCollect st (.arr [f1])).1.warnings + 1⟩,
           (fixCollect st (.arr [f1])).2)) := by
  refine ⟨?_, ?_, ?_⟩
  · intro cfg table st sn m sp sv ag nt fx hne
    have : st.edits.isEmpty = false := by
      cases h : st.edits with
      | nil => exact absurd h hne
      | cons a l => rfl
    simp [afterFilters, this]
  · intro table st sn m sp sv ag nt st2 h
    unfold renderDiag at h
    repeat' split at h
    all_goals first
      | (cases h; exact ⟨rfl, rfl⟩)
      | exact Option.noConfusion h
  · intro st f1 rest hne
    cases rest with
    | nil => exact absurd rfl hne
    | cons f2 rest' =>
      rw [fixCollect_multi, fixCollect_single]
      cases hje : (jGet f1 "edits").bind asArray with
      | none => rfl
      | some ea => rfl

theorem C7_witness :
    (⟨[], [⟨0, 1, []⟩], 0⟩ : PState).edits ≠ [] ∧
    afterFilters ⟨none, [], true⟩ [] ⟨[], [⟨0, 1, []⟩], 0⟩
        (.str "r") (.str "m") (.arr []) (.num 1) (.arr []) (.arr []) (.arr [])
      = renderDiag [] ⟨[], [⟨0, 1, []⟩], 0⟩
        (.str "r") (.str "m") (.arr []) (.num 1) (.arr []) (.arr []) ∧
    fixCollect ⟨[], [], 0⟩ (.arr [.obj [], .obj []]) =
      (⟨(fixCollect ⟨[], [], 0⟩ (.arr [.obj []])).1.reports,
        (fixCollect ⟨[], [], 0⟩ (.arr [.obj []])).1.edits,
        (fixCollect ⟨[], [], 0⟩ (.arr [.obj []])).1.warnings + 1⟩,
       (fixCollect ⟨[], [], 0⟩ (.arr [.obj []])).2) :=
  ⟨by decide,
   C7_one_fix_per_file.1 ⟨none, [], true⟩ [] ⟨[], [⟨0, 1, []⟩], 0⟩
     (.str "r") (.str "m") (.arr []) (.num 1) (.arr []) (.arr []) (.arr [])
     (by decide),
   C7_one_fix_per_file.2.2 ⟨[], [], 0⟩ (.obj []) [.obj []] (by simp)⟩

/-- C8: a diagnostic entry missing any of the seven required fields is
silently skipped — it leaves the loop state untouched and the remaining
entries are processed as if it were not there — so the processed sequence
is exactly the well-formed entries in their original order (running the
loop on the list equals running it on the list filtered to well-formed
entries). -/
theorem C8_skip_malformed :
    (∀ (cfg : Config) (table : List Nat) (st : PState) (ds : List Json) (d : Json),
        hasRequiredFields d = false →
        processDiags cfg table (d :: ds) st = processDiags cfg table ds st) ∧
    (∀ (cfg : Config) (table : List Nat) (ds : List Json) (st : PState),
        processDiags cfg table ds st =
          processDiags cfg table (ds.filter hasRequiredFields) st) := by
  have hskip : ∀ (cfg : Config) (table : List Nat) (st : PState) (d : Json),
      hasRequiredFields d = false → processDiag cfg table st d = some st := by
    intro cfg table st d hd
    rw [hasRequiredFields] at hd
    cases hrf : requiredFields d with
    | none => simp [processDiag, hrf]
    | some v => rw [hrf] at hd; simp at hd
  constructor
  · intro cfg table st ds d hd
    simp [processDiags, hskip cfg table st d hd]
  · intro cfg table ds
    induction ds with
    | nil => intro st; rfl
    | cons d ds ih =>
      intro st
      cases hd : hasRequiredFields d with
      | false =>
        rw [List.filter_cons_of_neg (by simp [hd])]
        simp [processDiags, hskip cfg table st d hd, ih st]
      | true =>
        rw [List.filter_cons_of_pos (by simp [hd])]
        simp only [processDiags]
        cases hp : processDiag cfg table st d with
        | none => rfl
        | some st2 => exact ih st2

theorem C8_witness :
    hasRequiredFields (.obj [("message", .str "m")]) = false ∧
    processDiags ⟨none, [], false⟩ [] [.obj [("message", .str "m")], advDiag] ⟨[], [], 0⟩
      = processDiags ⟨none, [], false⟩ [] [advDiag] ⟨[], [], 0⟩ :=
  ⟨rfl,
   C8_skip_malformed.1 ⟨none, [], false⟩ [] ⟨[], [], 0⟩ [advDiag]
     (.obj [("message", .str "m")]) rfl⟩

/-- C10: the claim says that with auto-fix enabled, *every* surviving
diagnostic whose first Fix contains an edits array produces no rendered
report.  This only holds while the per-file working edit set is still
empty: in a run with two identical fix-carrying diagnostics over "abc",
the first queues its edit and is consumed, but the second — its guard
`all_edits.len() == 0` now failing — is rendered normally, so the report
list is non-empty and the run exits 1. -/
theorem C10_counterexample :
    processFileDiags ⟨none, [], true⟩ "abc".data (.arr [fixDiag, fixDiag])
      = some ⟨[⟨.warning, "r", "m".data, 0, 1, []⟩], [⟨0, 1, strBytes "Z".data⟩], 0⟩ ∧
    ([⟨.warning, "r", "m".data, 0, 1, []⟩] : List RReport) ≠ [] ∧
    exitStatus [⟨.warning, "r", "m".data, 0, 1, []⟩] = 1 :=
  ⟨rfl, by simp, rfl⟩

/-- C10 (amended): when auto-fix is enabled and the per-file working edit
set is *still empty*, a surviving diagnostic whose first Fix contains an
edits array is consumed by fix collection and produces no rendered
report; consequently a run in which every surviving diagnostic was
consumed this way has an empty aggregate report list and exits 0 despite
diagnostics having been found — witnessed by the single-diagnostic
auto-fix run over "abc". -/
theorem C10_autofix_no_report :
    (∀ (cfg : Config) (table : List Nat) (st : PState) sn m sp sv ag nt fx
        (f1 : Json) (rest ea : List Json),
        cfg.auto_fix = true → st.edits = [] →
        asArray fx = some (f1 :: rest) →
        (jGet f1 "edits").bind asArray = some ea →
        ∃ st2, afterFilters cfg table st sn m sp sv ag nt fx = some st2 ∧
          st2.reports = st.reports) ∧
    processFileDiags ⟨none, [], true⟩ "abc".data (.arr [fixDiag])
      = some ⟨[], [⟨0, 1, strBytes "Z".data⟩], 0⟩ ∧
    exitStatus [] = 0 := by
  refine ⟨?_, rfl, rfl⟩
  intro cfg table st sn m sp sv ag nt fx f1 rest ea hauto hempty hfx hje
  have hie : st.edits.isEmpty = true := by simp [hempty]
  unfold afterFilters
  rw [hauto, hie]
  simp only [Bool.and_self, if_pos]
  unfold fixCollect
  rw [hfx]
  cases rest with
  | nil =>
    simp only [List.length_nil, gt_iff_lt, Nat.lt_irrefl, if_false]
    rw [hje]
    exact ⟨_, rfl, rfl⟩
  | cons f2 rest' =>
    simp only [List.length_cons, gt_iff_lt, Nat.succ_pos, if_pos]
    rw [hje]
    exact ⟨_, rfl, rfl⟩

theorem C10_witness :
    ∃ st2, afterFilters ⟨none, [], true⟩ [] ⟨[⟨.error, "x", [], 0, 0, []⟩], [], 0⟩
        (.str "r") (.str "m") (.arr []) (.num 1) (.arr []) (.arr [])
        (.arr [.obj [("edits", .arr [])]])
      = some st2 ∧ st2.reports = [⟨.error, "x", [], 0, 0, []⟩] :=
  C10_autofix_no_report.1 ⟨none, [], true⟩ [] ⟨[⟨.error, "x", [], 0, 0, []⟩], [], 0⟩
    (.str "r") (.str "m") (.arr []) (.num 1) (.arr []) (.arr [])
    (.arr [.obj [("edits", .arr [])]]) (.obj [("edits", .arr [])]) [] []
    rfl rfl rfl rfl

end Nixf
